import Mathlib

/-!
Shallow embedding of the outfit-cataloging retrieval service (src/main.py).

Vector components are modelled as rationals.  The CLIP model and numpy's
`linalg.norm` are external black boxes and appear as abstract functions
bundled in a `Clip` structure.  The faiss `IndexFlatL2` is likewise an
external library; its `search` is modelled from the spec's §4.3 contract
(up to `k` nearest neighbours by squared Euclidean distance, ascending,
ties broken by insertion order).  File-system state (image directory,
`image_comments.json`, `metadata.json`, `faiss_index.index`) and the
process-wide in-memory `index`/`metadata` globals are threaded explicitly
through a `Sys` record.
-/

/-- A vector of rational components (the code's numpy float arrays). -/
abbrev Vec := List ℚ

/-- Abstract embedding model: CLIP image/text encoders and numpy's L2 norm,
external black boxes per the spec's scope. -/
structure Clip where
  imageEmb : String → Vec
  textEmb : String → Vec
  norm : Vec → ℚ

/-- Elementwise `v / c` (numpy broadcasting of scalar division). -/
def vdivs (v : Vec) (c : ℚ) : Vec := v.map (· / c)

/-- Elementwise `(v + w) / 2` (numpy `(a + b) / 2`). -/
def vavg (v w : Vec) : Vec := List.zipWith (fun a b => (a + b) / 2) v w

/-- `v / np.linalg.norm(v)`. -/
def lnormalize (M : Clip) (v : Vec) : Vec := vdivs v (M.norm v)

/-- Squared Euclidean distance, the metric of `faiss.IndexFlatL2`. -/
def sqDist (v w : Vec) : ℚ := (List.zipWith (fun a b => (a - b) ^ 2) v w).sum

/-- main.py lines 130-147, `process_image_text_pair`: independently
L2-normalize the image and text embeddings and average elementwise. -/
def process_image_text_pair (M : Clip) (image_path text : String) : Vec :=
  vavg (lnormalize M (M.imageEmb image_path)) (lnormalize M (M.textEmb text))

/-- A value in `image_comments.json`: either the legacy plain-string comment
or the `{comment, tags}` object. -/
inductive CVal where
  | legacy (s : String)
  | entry (comment : String) (tags : List String)
deriving Repr, DecidableEq

/-- A metadata entry (`{filename, comment, tags}`). -/
structure CatalogItem where
  filename : String
  comment : String
  tags : List String
deriving Repr, DecidableEq

/-- Default used only to express Python's `metadata[idx]` total in Lean. -/
def dfltItem : CatalogItem := ⟨"", "", []⟩

/-- Python-dict assignment `d[k] = v`: replaces in place if the key exists
(keeping its position, as Python dicts preserve insertion order), otherwise
appends. -/
def dictSet (d : List (String × α)) (k : String) (v : α) : List (String × α) :=
  if d.any (fun p => p.1 == k) then
    d.map (fun p => if p.1 == k then (k, v) else p)
  else d ++ [(k, v)]

/-- Python `k in d`. -/
def dictHas (d : List (String × α)) (k : String) : Bool :=
  d.any (fun p => p.1 == k)

/-- Python `d[k]` as an `Option`. -/
def dictGet (d : List (String × α)) (k : String) : Option α :=
  (d.find? (fun p => p.1 == k)).map (·.2)

/-- Python `del d[k]` (after the `KeyError` check done at call sites). -/
def dictDel (d : List (String × α)) (k : String) : List (String × α) :=
  d.filter (fun p => p.1 != k)

/-- The process state: image directory contents, the two JSON files, the
binary index file, and the in-memory `index` / `metadata` globals. -/
structure Sys where
  images : List String
  commentsFile : Option (List (String × CVal))
  metadata : List CatalogItem
  index : List Vec
  indexFile : List Vec
  metadataFile : List CatalogItem
deriving Repr, DecidableEq

/-- `os.path.join(IMAGE_DIR, filename)`. -/
def imgPath (filename : String) : String := "images/" ++ filename

/-- An HTTP response body: a `{message}` or `{error}` payload. -/
inductive Resp where
  | message (s : String)
  | error (s : String)
deriving Repr, DecidableEq

/-- main.py line 162: `[t.strip() for t in tags.split(",") if t.strip()]`. -/
def parseTags (tags : String) : List String :=
  ((tags.splitOn ",").map String.trim).filter (fun t => t ≠ "")

/-- main.py line 179: `f"{comment} {' '.join(tag_list)}"`. -/
def combinedText (comment : String) (tags : List String) : String :=
  comment ++ " " ++ String.intercalate " " tags

/-- main.py lines 149-195, `add_item`: save the image, upsert the comments
file, embed, append to the faiss index and to `metadata`, persist both. -/
def add_item (M : Clip) (s : Sys) (filename comment tags : String) : Sys × Resp :=
  let images' := if filename ∈ s.images then s.images else s.images ++ [filename]
  let tag_list := parseTags tags
  let comments_data := s.commentsFile.getD []
  let comments_data' := dictSet comments_data filename (.entry comment tag_list)
  let emb := process_image_text_pair M (imgPath filename) (combinedText comment tag_list)
  let index' := s.index ++ [emb]
  let metadata' := s.metadata ++ [⟨filename, comment, tag_list⟩]
  ({ images := images'
     commentsFile := some comments_data'
     metadata := metadata'
     index := index'
     indexFile := index'
     metadataFile := metadata' },
   .message "Item added successfully")

/-- Modelled from the spec: `faiss.IndexFlatL2.search`, an external library
declared an opaque black box; per the §4.3 contract it returns up to `k`
nearest neighbours by squared Euclidean distance in ascending order, ties
broken by insertion order (stable sort over the exhaustive scan). -/
def fsearch (xs : List Vec) (q : Vec) (k : ℕ) : List ℚ × List ℕ :=
  let pairs := (List.range xs.length).map (fun i => (sqDist q (xs.getD i []), i))
  let top := (List.insertionSort (fun a b => a.1 ≤ b.1) pairs).take k
  (top.map (·.1), top.map (·.2))

/-- main.py lines 255-282: the query embedding of `search_image` — the same
combination as storage when a comment is given, else the normalized image
embedding alone. -/
def search_query_emb (M : Clip) (img comment : String) : Vec :=
  if comment ≠ "" then
    vavg (lnormalize M (M.imageEmb img)) (lnormalize M (M.textEmb comment))
  else
    lnormalize M (M.imageEmb img)

/-- main.py lines 244-293, `search_image`: embed the query, search the index
for `k` neighbours, keep hits with `d <= max_distance` (a float, so `+∞` is
representable: `WithTop ℚ`) and `idx < len(metadata)`, return the matching
metadata entries in order. -/
def search_image (M : Clip) (s : Sys) (img comment : String) (k : ℕ)
    (max_distance : WithTop ℚ) : List CatalogItem :=
  let res := fsearch s.index (search_query_emb M img comment) k
  ((res.1.zip res.2).filter
      (fun p => decide ((p.1 : WithTop ℚ) ≤ max_distance) && decide (p.2 < s.metadata.length))).map
    (fun p => s.metadata.getD p.2 dfltItem)

/-- The `(comment, tags)` view of a comments-file value
(main.py lines 213-219, legacy handling). -/
def cvalParts : CVal → String × List String
  | .legacy s => (s, [])
  | .entry c t => (c, t)

/-- The surviving `(filename, comment, tags)` rows of a rebuild: comments-file
entries whose backing image exists (main.py lines 212-232). -/
def rebuildRows (comments_data : List (String × CVal)) (images : List String) :
    List (String × String × List String) :=
  comments_data.filterMap (fun p =>
    if p.1 ∈ images then some (p.1, cvalParts p.2) else none)

/-- main.py lines 198-241, `rebuild_index`: reset the in-memory index and
metadata, re-embed every comments-file entry whose image exists, and persist
both files only when at least one embedding was produced. -/
def rebuild_index (M : Clip) (s : Sys) : Sys × Resp :=
  match s.commentsFile with
  | none => ({ s with index := [], metadata := [] }, .message "Index rebuilt successfully")
  | some comments_data =>
    let rows := rebuildRows comments_data s.images
    let embeddings := rows.map (fun r => process_image_text_pair M (imgPath r.1) (combinedText r.2.1 r.2.2))
    let new_metadata : List CatalogItem := rows.map (fun r => ⟨r.1, r.2.1, r.2.2⟩)
    if embeddings.isEmpty then
      ({ s with index := [], metadata := new_metadata }, .message "Index rebuilt successfully")
    else
      ({ s with index := embeddings, metadata := new_metadata,
                indexFile := embeddings, metadataFile := new_metadata },
       .message "Index rebuilt successfully")

/-- main.py lines 329-357, the body of `delete_item`'s `try` block, with the
state at each potential exception point made explicit: remove the image file
(no-op when absent), read the comments file (`FileNotFoundError` when
missing), `del` the entry (`KeyError` when absent), rewrite the comments
file, filter `metadata` and rewrite `metadata.json`, reset the index, then
re-embed every remaining item (`Image.open` raises when an item's image file
is missing — before any vector is added) and persist the index. -/
def delete_item_run (M : Clip) (s : Sys) (filename : String) : Sys × Except String String :=
  let images' := s.images.filter (fun f => f ≠ filename)
  match s.commentsFile with
  | none => ({ s with images := images' }, .error "FileNotFoundError: image_comments.json")
  | some comments_data =>
    if dictHas comments_data filename then
      let metadata' := s.metadata.filter (fun item => item.filename ≠ filename)
      if metadata'.isEmpty then
        ({ images := images', commentsFile := some (dictDel comments_data filename),
           metadata := metadata', index := [], indexFile := s.indexFile,
           metadataFile := metadata' }, .ok "Item deleted successfully")
      else if metadata'.all (fun item => item.filename ∈ images') then
        let embeddings := metadata'.map (fun item =>
          process_image_text_pair M (imgPath item.filename)
            (combinedText item.comment item.tags))
        ({ images := images', commentsFile := some (dictDel comments_data filename),
           metadata := metadata', index := embeddings, indexFile := embeddings,
           metadataFile := metadata' }, .ok "Item deleted successfully")
      else
        ({ images := images', commentsFile := some (dictDel comments_data filename),
           metadata := metadata', index := [], indexFile := s.indexFile,
           metadataFile := metadata' }, .error "FileNotFoundError: missing image file")
    else
      ({ s with images := images' }, .error ("KeyError: " ++ filename))

/-- main.py lines 327-361, `delete_item`: the `try`/`except Exception` wrapper
that converts any raised error into a structured `{error}` payload. -/
def delete_item (M : Clip) (s : Sys) (filename : String) : Sys × Resp :=
  let r := delete_item_run M s filename
  (r.1, match r.2 with
        | .ok m => .message m
        | .error e => .error e)

/-- A detection from the YOLOS provider (main.py lines 42-49): category
label, confidence score and bounding box. -/
structure DetComp where
  category : String
  confidence : ℚ
  bbox : List ℚ
deriving Repr, DecidableEq

/-- An output row of `analyze_outfit`: `{category, confidence, segment_path}`
(main.py lines 90-94). -/
structure SegComp where
  category : String
  confidence : ℚ
  segment_path : String
deriving Repr, DecidableEq

/-- main.py lines 65-70: the fixed exclusion set of accessory/structural
categories. -/
def excluded_categories : List String :=
  ["headband, head covering, hair accessory", "hood", "collar", "lapel",
   "epaulette", "sleeve", "pocket", "neckline", "buckle", "zipper",
   "applique", "bead", "bow", "flower", "fringe", "ribbon", "rivet",
   "ruffle", "sequin", "tassel"]

/-- main.py lines 73-94: the loop over detections.  `tracker` is the
insertion-ordered `category_tracker` dict; `n` counts the crops written so
far and feeds the fresh-name generator standing in for `uuid.uuid4()`. -/
def analyzeGo (uuid : ℕ → String) :
    List DetComp → List (String × SegComp) → ℕ → List (String × SegComp)
  | [], tracker, _ => tracker
  | comp :: rest, tracker, n =>
    if (comp.confidence ≥ mkRat 3 4) && !(excluded_categories.contains comp.category) then
      let keep :=
        match dictGet tracker comp.category with
        | none => true
        | some existing => comp.confidence > existing.confidence
      if keep then
        let seg_path := "segments/" ++ uuid n ++ ".jpg"
        analyzeGo uuid rest
          (dictSet tracker comp.category ⟨comp.category, comp.confidence, seg_path⟩) (n + 1)
      else analyzeGo uuid rest tracker n
    else analyzeGo uuid rest tracker n

/-- main.py lines 54-99, `analyze_outfit`: filter detections by confidence
`>= 0.75` and the exclusion set, keep the highest-confidence detection per
category, and return the tracker's values.  The detection model itself is an
external black box, so the function takes its output `components` directly;
`uuid` abstracts `uuid.uuid4()` name generation. -/
def analyze_outfit (uuid : ℕ → String) (components : List DetComp) : List SegComp :=
  (analyzeGo uuid components [] 0).map (·.2)

/-- A concrete embedding model used in closed witness statements. -/
def demoClip : Clip :=
  { imageEmb := fun p => if p = "images/a.jpg" then [1, 0] else [0, 1]
    textEmb := fun _ => [1, 1]
    norm := fun _ => 1 }

/-- A concrete one-item state used in closed witness statements. -/
def demoSys : Sys :=
  { images := ["a.jpg"]
    commentsFile := some [("a.jpg", .entry "c" [])]
    metadata := [⟨"a.jpg", "c", []⟩]
    index := [[1, 0]]
    indexFile := [[1, 0]]
    metadataFile := [⟨"a.jpg", "c", []⟩] }

/-- The one-item state with its backing image file removed, used in closed
witness statements about rebuilds that survive no entry. -/
def demoSysNoImages : Sys :=
  { images := []
    commentsFile := some [("a.jpg", .entry "c" [])]
    metadata := [⟨"a.jpg", "c", []⟩]
    index := [[1, 0]]
    indexFile := [[1, 0]]
    metadataFile := [⟨"a.jpg", "c", []⟩] }

/-- A concrete two-item state used in closed witness statements. -/
def demoSys2 : Sys :=
  { images := ["a.jpg", "b.jpg"]
    commentsFile := some [("a.jpg", .entry "c" []), ("b.jpg", .entry "d" [])]
    metadata := [⟨"a.jpg", "c", []⟩, ⟨"b.jpg", "d", []⟩]
    index := [[1, 0], [0, 1]]
    indexFile := [[1, 0], [0, 1]]
    metadataFile := [⟨"a.jpg", "c", []⟩, ⟨"b.jpg", "d", []⟩] }

/-! ## Helper lemmas -/

lemma dictSet_keys {α : Type} (d : List (String × α)) (k : String) (v : α)
    (h : dictHas d k = true) : (dictSet d k v).map (·.1) = d.map (·.1) := by
  unfold dictSet
  rw [if_pos (by simpa [dictHas] using h)]
  rw [List.map_map]
  apply List.map_congr_left
  intro p _
  by_cases hk : p.1 = k
  · simp [beq_iff_eq, hk]
  · simp [beq_iff_eq, hk]

lemma map_getD_range {α : Type} (l : List α) (d : α) :
    (List.range l.length).map (fun i => l.getD i d) = l := by
  induction l with
  | nil => simp
  | cons a t ih =>
    rw [List.length_cons, List.range_succ_eq_map, List.map_cons, List.map_map]
    have hc : ((fun i => (a :: t).getD i d) ∘ Nat.succ) = fun i => t.getD i d := by
      funext i
      simp [List.getD_eq_getElem?_getD]
    rw [hc, ih]
    simp [List.getD_eq_getElem?_getD]

lemma search_image_mem_metadata (M : Clip) (s : Sys) (img comment : String) (k : ℕ)
    (maxd : WithTop ℚ) (item : CatalogItem)
    (h : item ∈ search_image M s img comment k maxd) : item ∈ s.metadata := by
  unfold search_image at h
  obtain ⟨p, hp, heq⟩ := List.mem_map.mp h
  have hfilt := (List.mem_filter.mp hp).2
  have hlt : p.2 < s.metadata.length := by
    have := (Bool.and_eq_true _ _).mp hfilt
    exact of_decide_eq_true this.2
  subst heq
  rw [List.getD_eq_getElem?_getD, List.getElem?_eq_getElem hlt]
  exact List.getElem_mem hlt

lemma zip_map_fst_snd {α β : Type} (l : List (α × β)) :
    (l.map (·.1)).zip (l.map (·.2)) = l := by
  rw [List.zip_map']
  simp

/-- The distance-ordered pair list underlying `fsearch`. -/
def fsearchPairs (xs : List Vec) (q : Vec) : List (ℚ × ℕ) :=
  List.insertionSort (fun a b => a.1 ≤ b.1)
    ((List.range xs.length).map (fun i => (sqDist q (xs.getD i []), i)))

lemma fsearchPairs_length (xs : List Vec) (q : Vec) :
    (fsearchPairs xs q).length = xs.length := by
  unfold fsearchPairs
  rw [(List.perm_insertionSort _ _).length_eq]
  simp

lemma fsearch_eq (xs : List Vec) (q : Vec) (k : ℕ) (hk : xs.length ≤ k) :
    fsearch xs q k = ((fsearchPairs xs q).map (·.1), (fsearchPairs xs q).map (·.2)) := by
  have hlen2 : (List.insertionSort (fun a b : ℚ × ℕ => a.1 ≤ b.1)
      ((List.range xs.length).map (fun i => (sqDist q (xs.getD i []), i)))).length ≤ k := by
    rw [(List.perm_insertionSort _ _).length_eq]
    simpa using hk
  simp only [fsearch, fsearchPairs, List.take_of_length_le hlen2]

lemma fsearchPairs_mem (xs : List Vec) (q : Vec) (p : ℚ × ℕ)
    (hp : p ∈ fsearchPairs xs q) : p.1 = sqDist q (xs.getD p.2 []) ∧ p.2 < xs.length := by
  have hp' : p ∈ (List.range xs.length).map (fun i => (sqDist q (xs.getD i []), i)) :=
    (List.perm_insertionSort _ _).mem_iff.mp hp
  obtain ⟨i, hi, rfl⟩ := List.mem_map.mp hp'
  exact ⟨rfl, List.mem_range.mp hi⟩

lemma fsearchPairs_sorted (xs : List Vec) (q : Vec) :
    List.Pairwise (fun a b : ℚ × ℕ => a.1 ≤ b.1) (fsearchPairs xs q) := by
  haveI : IsTotal (ℚ × ℕ) (fun a b => a.1 ≤ b.1) := ⟨fun a b => le_total a.1 b.1⟩
  haveI : IsTrans (ℚ × ℕ) (fun a b => a.1 ≤ b.1) := ⟨fun _ _ _ h1 h2 => le_trans h1 h2⟩
  exact List.sorted_insertionSort _ _

lemma search_image_top_eq (M : Clip) (s : Sys) (img comment : String) (k : ℕ)
    (hlen : s.index.length = s.metadata.length) (hk : s.metadata.length ≤ k) :
    search_image M s img comment k ⊤ =
      (fsearchPairs s.index (search_query_emb M img comment)).map
        (fun p => s.metadata.getD p.2 dfltItem) := by
  unfold search_image
  rw [fsearch_eq s.index _ k (by rw [hlen]; exact hk)]
  simp only []
  rw [zip_map_fst_snd]
  rw [List.filter_eq_self.mpr]
  intro p hp
  have hmem := fsearchPairs_mem s.index _ p hp
  have h2 : p.2 < s.metadata.length := hlen ▸ hmem.2
  simp [h2]

lemma dictHas_iff {α : Type} (d : List (String × α)) (k : String) :
    dictHas d k = true ↔ k ∈ d.map (·.1) := by
  unfold dictHas
  rw [List.any_eq_true]
  constructor
  · rintro ⟨p, hp, hpk⟩
    exact List.mem_map.mpr ⟨p, hp, eq_of_beq hpk⟩
  · intro hk
    obtain ⟨p, hp, hpk⟩ := List.mem_map.mp hk
    exact ⟨p, hp, by simp [beq_iff_eq, hpk]⟩

lemma mem_dictSet {α : Type} (d : List (String × α)) (k : String) (v : α)
    (p : String × α) (hp : p ∈ dictSet d k v) :
    p = (k, v) ∨ (p ∈ d ∧ p.1 ≠ k) := by
  unfold dictSet at hp
  by_cases h : d.any (fun q => q.1 == k) = true
  · rw [if_pos h] at hp
    obtain ⟨q, hq, hqe⟩ := List.mem_map.mp hp
    by_cases hk : q.1 = k
    · left
      rw [← hqe]
      simp [beq_iff_eq, hk]
    · right
      rw [← hqe]
      simp only [beq_iff_eq, hk, if_false]
      exact ⟨hq, hk⟩
  · rw [if_neg h] at hp
    rcases List.mem_append.mp hp with hp | hp
    · right
      refine ⟨hp, ?_⟩
      rw [Bool.not_eq_true] at h
      have := List.any_eq_false.mp h p hp
      simpa [beq_iff_eq] using this
    · left
      simpa using hp

lemma dictSet_keys_nodup {α : Type} (d : List (String × α)) (k : String) (v : α)
    (h : (d.map (·.1)).Nodup) : ((dictSet d k v).map (·.1)).Nodup := by
  by_cases hh : dictHas d k = true
  · rw [dictSet_keys d k v hh]
    exact h
  · unfold dictSet
    rw [if_neg (by simpa [dictHas] using hh)]
    rw [List.map_append]
    simp only [List.map_cons, List.map_nil]
    refine List.Nodup.append h (List.nodup_singleton k) ?_
    intro a ha hb
    simp only [List.mem_singleton] at hb
    subst hb
    exact absurd ((dictHas_iff d a).mpr ha) (by simpa using hh)

lemma dictHas_dictSet_self {α : Type} (d : List (String × α)) (k : String) (v : α) :
    dictHas (dictSet d k v) k = true := by
  rw [dictHas_iff]
  by_cases hh : dictHas d k = true
  · rw [dictSet_keys d k v hh]
    exact (dictHas_iff d k).mp hh
  · unfold dictSet
    rw [if_neg (by simpa [dictHas] using hh)]
    simp

lemma dictHas_dictSet_mono {α : Type} (d : List (String × α)) (k k' : String) (v : α)
    (h : dictHas d k' = true) : dictHas (dictSet d k v) k' = true := by
  rw [dictHas_iff]
  by_cases hh : dictHas d k = true
  · rw [dictSet_keys d k v hh]
    exact (dictHas_iff d k').mp h
  · unfold dictSet
    rw [if_neg (by simpa [dictHas] using hh)]
    rw [List.map_append]
    exact List.mem_append_left _ ((dictHas_iff d k').mp h)

lemma dictGet_some_mem {α : Type} (d : List (String × α)) (k : String) (v : α)
    (h : dictGet d k = some v) : (k, v) ∈ d := by
  unfold dictGet at h
  cases hf : d.find? (fun p => p.1 == k) with
  | none => rw [hf] at h; simp at h
  | some q =>
    rw [hf] at h
    simp only [Option.map_some', Option.some.injEq] at h
    have hq := List.mem_of_find?_eq_some hf
    have hqk : q.1 = k := by simpa [beq_iff_eq] using List.find?_some hf
    have hkv : (k, v) = q := by
      cases q
      simp_all
    rw [hkv]
    exact hq

lemma dictGet_none_not_has {α : Type} (d : List (String × α)) (k : String)
    (h : dictGet d k = none) : dictHas d k = false := by
  unfold dictGet at h
  cases hf : d.find? (fun p => p.1 == k) with
  | some q => rw [hf] at h; simp at h
  | none =>
    have := List.find?_eq_none.mp hf
    simp only [dictHas]
    rw [List.any_eq_false]
    exact this

lemma delete_item_run_ok (M : Clip) (s : Sys) (filename m : String)
    (h : (delete_item_run M s filename).2 = .ok m) :
    m = "Item deleted successfully" ∧
    (delete_item_run M s filename).1.metadata =
      s.metadata.filter (fun item => item.filename ≠ filename) := by
  unfold delete_item_run at h ⊢
  cases hc : s.commentsFile with
  | none => simp [hc] at h
  | some cd =>
    simp only [hc] at h ⊢
    by_cases hk : dictHas cd filename = true
    · rw [if_pos hk] at h ⊢
      by_cases hm : (s.metadata.filter (fun item => item.filename ≠ filename)).isEmpty = true
      · rw [if_pos hm] at h ⊢
        exact ⟨(Except.ok.inj h).symm, rfl⟩
      · rw [if_neg hm] at h ⊢
        by_cases ha : (s.metadata.filter (fun item => item.filename ≠ filename)).all
            (fun item => item.filename ∈ s.images.filter (fun f => f ≠ filename)) = true
        · rw [if_pos ha] at h ⊢
          exact ⟨(Except.ok.inj h).symm, rfl⟩
        · rw [if_neg ha] at h
          simp at h
    · rw [if_neg hk] at h
      simp at h

/-- Loop invariant of `analyze_outfit`'s `category_tracker` with respect to
the detections processed so far: keys are distinct; every tracked component
carries its key as category, passes the confidence and exclusion filters,
dominates every processed detection of its category and is realized by one
of them; and every processed detection that passes the filters has its
category tracked. -/
def TrackerInv (tracker : List (String × SegComp)) (past : List DetComp) : Prop :=
  (tracker.map (·.1)).Nodup ∧
  (∀ p ∈ tracker,
    p.2.category = p.1 ∧
    mkRat 3 4 ≤ p.2.confidence ∧
    p.2.category ∉ excluded_categories ∧
    (∀ c ∈ past, c.category = p.1 → c.confidence ≤ p.2.confidence) ∧
    (∃ c ∈ past, c.category = p.1 ∧ c.confidence = p.2.confidence)) ∧
  (∀ c ∈ past, mkRat 3 4 ≤ c.confidence → c.category ∉ excluded_categories →
    dictHas tracker c.category = true)

lemma trackerInv_insert (tracker : List (String × SegComp)) (past : List DetComp)
    (comp : DetComp) (sp : String) (h : TrackerInv tracker past)
    (hconf : mkRat 3 4 ≤ comp.confidence) (hexc : comp.category ∉ excluded_categories)
    (hpastmax : ∀ c ∈ past, c.category = comp.category → c.confidence ≤ comp.confidence) :
    TrackerInv (dictSet tracker comp.category ⟨comp.category, comp.confidence, sp⟩)
      (past ++ [comp]) := by
  obtain ⟨hnodup, hent, hhas⟩ := h
  refine ⟨dictSet_keys_nodup _ _ _ hnodup, ?_, ?_⟩
  · intro p hp
    rcases mem_dictSet _ _ _ _ hp with hpe | ⟨hpd, hpne⟩
    · subst hpe
      refine ⟨rfl, hconf, hexc, ?_, ?_⟩
      · intro c hc hcat
        rcases List.mem_append.mp hc with hc | hc
        · exact hpastmax c hc hcat
        · rw [List.mem_singleton.mp hc]
      · exact ⟨comp, List.mem_append_right _ (List.mem_singleton.mpr rfl), rfl, rfl⟩
    · obtain ⟨h1, h2, h3, h4, h5⟩ := hent p hpd
      refine ⟨h1, h2, h3, ?_, ?_⟩
      · intro c hc hcat
        rcases List.mem_append.mp hc with hc | hc
        · exact h4 c hc hcat
        · rw [List.mem_singleton.mp hc] at hcat
          exact absurd hcat.symm hpne
      · obtain ⟨c, hc, hc1, hc2⟩ := h5
        exact ⟨c, List.mem_append_left _ hc, hc1, hc2⟩
  · intro c hc hc1 hc2
    rcases List.mem_append.mp hc with hc | hc
    · exact dictHas_dictSet_mono _ _ _ _ (hhas c hc hc1 hc2)
    · rw [List.mem_singleton.mp hc]
      exact dictHas_dictSet_self _ _ _

lemma trackerInv_skip (tracker : List (String × SegComp)) (past : List DetComp)
    (comp : DetComp) (h : TrackerInv tracker past)
    (hskip : ∀ p ∈ tracker, p.1 = comp.category → comp.confidence ≤ p.2.confidence)
    (helig : mkRat 3 4 ≤ comp.confidence → comp.category ∉ excluded_categories →
      dictHas tracker comp.category = true) :
    TrackerInv tracker (past ++ [comp]) := by
  obtain ⟨hnodup, hent, hhas⟩ := h
  refine ⟨hnodup, ?_, ?_⟩
  · intro p hp
    obtain ⟨h1, h2, h3, h4, h5⟩ := hent p hp
    refine ⟨h1, h2, h3, ?_, ?_⟩
    · intro c hc hcat
      rcases List.mem_append.mp hc with hc | hc
      · exact h4 c hc hcat
      · rw [List.mem_singleton.mp hc] at hcat ⊢
        exact hskip p hp hcat.symm
    · obtain ⟨c, hc, hc1, hc2⟩ := h5
      exact ⟨c, List.mem_append_left _ hc, hc1, hc2⟩
  · intro c hc hc1 hc2
    rcases List.mem_append.mp hc with hc | hc
    · exact hhas c hc hc1 hc2
    · rw [List.mem_singleton.mp hc] at hc1 hc2 ⊢
      exact helig hc1 hc2

lemma analyzeGo_spec (uuid : ℕ → String) (rest : List DetComp) :
    ∀ (tracker : List (String × SegComp)) (n : ℕ) (past : List DetComp),
    TrackerInv tracker past → TrackerInv (analyzeGo uuid rest tracker n) (past ++ rest) := by
  induction rest with
  | nil =>
    intro tracker n past h
    simpa using h
  | cons comp rest ih =>
    intro tracker n past h
    have hps : past ++ comp :: rest = (past ++ [comp]) ++ rest := by simp
    rw [hps]
    show TrackerInv (analyzeGo uuid (comp :: rest) tracker n) ((past ++ [comp]) ++ rest)
    unfold analyzeGo
    by_cases hcond : ((comp.confidence ≥ mkRat 3 4) && !(excluded_categories.contains comp.category)) = true
    · rw [if_pos hcond]
      have hconf : mkRat 3 4 ≤ comp.confidence := by
        have := (Bool.and_eq_true _ _).mp hcond
        exact of_decide_eq_true this.1
      have hexc : comp.category ∉ excluded_categories := by
        have := (Bool.and_eq_true _ _).mp hcond
        have h2 := this.2
        rw [Bool.not_eq_true'] at h2
        simpa using h2
      cases hg : dictGet tracker comp.category with
      | none =>
        simp only [hg]
        rw [if_pos trivial]
        apply ih
        apply trackerInv_insert tracker past comp _ h hconf hexc
        intro c hc hcat
        by_cases hcelig : mkRat 3 4 ≤ c.confidence
        · have := h.2.2 c hc hcelig (hcat ▸ hexc)
          rw [hcat] at this
          rw [dictGet_none_not_has tracker comp.category hg] at this
          exact absurd this (by simp)
        · exact le_trans (le_of_not_le hcelig) hconf
      | some existing =>
        simp only [hg]
        by_cases hgt : comp.confidence > existing.confidence
        · rw [if_pos (decide_eq_true hgt)]
          apply ih
          apply trackerInv_insert tracker past comp _ h hconf hexc
          intro c hc hcat
          have hmem := dictGet_some_mem tracker comp.category existing hg
          have := h.2.1 _ hmem
          exact le_trans (this.2.2.2.1 c hc hcat) (le_of_lt hgt)
        · rw [if_neg (by simpa using hgt)]
          apply ih
          apply trackerInv_skip tracker past comp h
          · intro p hp hpk
            have hmem := dictGet_some_mem tracker comp.category existing hg
            have hpe : p = (comp.category, existing) :=
              List.inj_on_of_nodup_map h.1 hp hmem (by rw [hpk])
            rw [hpe]
            exact le_of_not_lt hgt
          · intro _ _
            rw [dictHas_iff]
            exact List.mem_map.mpr ⟨_, dictGet_some_mem tracker comp.category existing hg, rfl⟩
    · rw [if_neg hcond]
      apply ih
      apply trackerInv_skip tracker past comp h
      · intro p hp hpk
        obtain ⟨h1, h2, h3, _, _⟩ := h.2.1 p hp
        by_cases hcc : mkRat 3 4 ≤ comp.confidence
        · exfalso
          apply hcond
          rw [Bool.and_eq_true]
          refine ⟨decide_eq_true hcc, ?_⟩
          rw [Bool.not_eq_true']
          rw [← Bool.not_eq_true]
          intro hmm
          exact (hpk ▸ (h1 ▸ h3)) (by simpa using hmm)
        · exact le_trans (le_of_not_le hcc) h2
      · intro hc1 hc2
        exact absurd (by rw [Bool.and_eq_true]; exact ⟨decide_eq_true hc1, by simpa using hc2⟩) hcond

/-! ## Claim theorems -/

/-- C1: every AddItem call appends exactly one vector to the index and one
CatalogItem to the metadata sequence in lockstep, so whenever
`len(index) = len(metadata)` held before the call it holds immediately
afterward. -/
theorem c1_add_item_lockstep (M : Clip) (s : Sys) (filename comment tags : String) :
    ((add_item M s filename comment tags).1.index =
        s.index ++ [process_image_text_pair M (imgPath filename)
          (combinedText comment (parseTags tags))] ∧
      (add_item M s filename comment tags).1.metadata =
        s.metadata ++ [⟨filename, comment, parseTags tags⟩]) ∧
    (s.index.length = s.metadata.length →
      (add_item M s filename comment tags).1.index.length =
        (add_item M s filename comment tags).1.metadata.length) := by
  refine ⟨⟨rfl, rfl⟩, fun h => ?_⟩
  simp [add_item, h]

/-- Witness for C1 at a concrete state whose index and metadata lengths agree. -/
theorem c1_add_item_lockstep_witness :
    demoSys.index.length = demoSys.metadata.length ∧
    (add_item demoClip demoSys "b.jpg" "x" "").1.index.length =
      (add_item demoClip demoSys "b.jpg" "x" "").1.metadata.length :=
  ⟨rfl, (c1_add_item_lockstep demoClip demoSys "b.jpg" "x" "").2 rfl⟩

/-- C2 counterexample: re-adding filename "a.jpg" (already present in the
Catalog Store and in the metadata sequence) leaves the metadata sequence with
two entries for "a.jpg" — `add_item` appends to `metadata` unconditionally
(main.py line 184). -/
theorem c2_metadata_duplicate_cex :
    ((add_item demoClip demoSys "a.jpg" "c2" "").1.metadata.countP
      (fun item => item.filename == "a.jpg")) = 2 := by decide

/-- C2 amended: for every AddItem call whose filename already exists in the
Catalog Store, the catalog entry is overwritten in place (the store's key
sequence is unchanged, so no duplicate catalog key appears), but the
metadata sequence still unconditionally receives one appended entry for that
filename, so duplicate metadata entries for the same filename do occur. -/
theorem c2_upsert_amended (M : Clip) (s : Sys) (filename comment tags : String)
    (h : dictHas (s.commentsFile.getD []) filename = true) :
    ((add_item M s filename comment tags).1.commentsFile.getD []).map (·.1) =
      (s.commentsFile.getD []).map (·.1) ∧
    (add_item M s filename comment tags).1.metadata =
      s.metadata ++ [⟨filename, comment, parseTags tags⟩] := by
  exact ⟨dictSet_keys _ _ _ h, rfl⟩

/-- Witness for C2's amended claim at a concrete state where the filename is
already a Catalog Store key. -/
theorem c2_upsert_amended_witness :
    dictHas (demoSys.commentsFile.getD []) "a.jpg" = true ∧
    (((add_item demoClip demoSys "a.jpg" "c2" "").1.commentsFile.getD []).map (·.1) =
        (demoSys.commentsFile.getD []).map (·.1) ∧
      (add_item demoClip demoSys "a.jpg" "c2" "").1.metadata =
        demoSys.metadata ++ [⟨"a.jpg", "c2", parseTags ""⟩]) :=
  ⟨by decide, c2_upsert_amended demoClip demoSys "a.jpg" "c2" "" (by decide)⟩

/-- C4: Search on an empty catalog (empty index and empty metadata) returns
the empty list for every query image, comment, `k ∈ [1,50]` and
`max_distance` — and, the model being total, raises no error. -/
theorem c4_search_empty_catalog (M : Clip) (s : Sys) (img comment : String)
    (k : ℕ) (maxd : WithTop ℚ) (hI : s.index = []) (hM : s.metadata = [])
    (hk1 : 1 ≤ k) (hk2 : k ≤ 50) :
    search_image M s img comment k maxd = [] := by
  simp [search_image, fsearch, hI]

/-- Witness for C4 on the concrete empty state with default parameters. -/
theorem c4_search_empty_catalog_witness :
    search_image demoClip
      ⟨[], none, [], [], [], []⟩ "q.jpg" "" 3 ((2/5 : ℚ) : WithTop ℚ) = [] :=
  c4_search_empty_catalog demoClip ⟨[], none, [], [], [], []⟩ "q.jpg" "" 3
    ((2/5 : ℚ) : WithTop ℚ) rfl rfl (by decide) (by decide)

/-- C3: with `max_distance = +∞` and `k ≥ len(metadata)` (on a catalog state
satisfying the §3 invariant `len(index) = len(metadata)`), Search returns
exactly the items of the metadata sequence, each once (a permutation), in
ascending order of squared distance between the query embedding and the
indexed vectors: the returned distances are sorted and the result lists the
metadata entries in the positions' distance-sorted order. -/
theorem c3_search_top_returns_all_sorted (M : Clip) (s : Sys) (img comment : String)
    (k : ℕ) (hlen : s.index.length = s.metadata.length) (hk : s.metadata.length ≤ k) :
    (search_image M s img comment k ⊤).Perm s.metadata ∧
    List.Pairwise (· ≤ ·) (fsearch s.index (search_query_emb M img comment) k).1 ∧
    search_image M s img comment k ⊤ =
      (fsearch s.index (search_query_emb M img comment) k).2.map
        (fun i => s.metadata.getD i dfltItem) := by
  have heq := search_image_top_eq M s img comment k hlen hk
  have hfe := fsearch_eq s.index (search_query_emb M img comment) k (by rw [hlen]; exact hk)
  refine ⟨?_, ?_, ?_⟩
  · rw [heq]
    unfold fsearchPairs
    refine ((List.perm_insertionSort _ _).map _).trans ?_
    rw [List.map_map]
    have hcomp : ((fun p : ℚ × ℕ => s.metadata.getD p.2 dfltItem) ∘
        (fun i => (sqDist (search_query_emb M img comment) (s.index.getD i []), i))) =
        fun i => s.metadata.getD i dfltItem := rfl
    rw [hcomp, hlen, map_getD_range]
  · rw [hfe]
    exact (fsearchPairs_sorted _ _).map _ (fun a b h => h)
  · rw [heq, hfe]
    rw [List.map_map]
    rfl

/-- Witness for C3 at the two-item state with `k = 3`. -/
theorem c3_search_top_returns_all_sorted_witness :
    demoSys2.index.length = demoSys2.metadata.length ∧
    demoSys2.metadata.length ≤ 3 ∧
    (search_image demoClip demoSys2 "b.jpg" "" 3 ⊤).Perm demoSys2.metadata :=
  ⟨rfl, by decide,
   (c3_search_top_returns_all_sorted demoClip demoSys2 "b.jpg" "" 3 rfl (by decide)).1⟩

/-- C5: RebuildIndex is idempotent — for every fixed Catalog Store and image
directory, a second consecutive call yields a metadata sequence and index
contents (and persisted files) identical to the first call's. -/
theorem c5_rebuild_index_idempotent (M : Clip) (s : Sys) :
    (rebuild_index M (rebuild_index M s).1).1.metadata = (rebuild_index M s).1.metadata ∧
    (rebuild_index M (rebuild_index M s).1).1.index = (rebuild_index M s).1.index ∧
    (rebuild_index M (rebuild_index M s).1).1.indexFile = (rebuild_index M s).1.indexFile ∧
    (rebuild_index M (rebuild_index M s).1).1.metadataFile = (rebuild_index M s).1.metadataFile := by
  cases hc : s.commentsFile with
  | none => simp [rebuild_index, hc]
  | some cd =>
    by_cases he : ((rebuildRows cd s.images).map (fun r =>
        process_image_text_pair M (imgPath r.1) (combinedText r.2.1 r.2.2))).isEmpty = true
    · simp [rebuild_index, hc, he]
    · simp [rebuild_index, hc, he]

/-- C6: after a successful DeleteItem(filename), no subsequent Search — any
query, `k` and `max_distance`, the stores being unchanged until the next
mutating operation — returns a CatalogItem with the deleted filename. -/
theorem c6_deleted_filename_never_returned (M : Clip) (s : Sys) (filename m : String)
    (h : (delete_item M s filename).2 = .message m)
    (img comment : String) (k : ℕ) (maxd : WithTop ℚ) (item : CatalogItem)
    (hmem : item ∈ search_image M (delete_item M s filename).1 img comment k maxd) :
    item.filename ≠ filename := by
  have hrun : (delete_item_run M s filename).2 = .ok m := by
    cases hr : (delete_item_run M s filename).2 with
    | ok m' =>
      have hm' : (delete_item M s filename).2 = .message m' := by simp [delete_item, hr]
      rw [hm'] at h
      exact congrArg Except.ok (Resp.message.inj h)
    | error e =>
      have he : (delete_item M s filename).2 = .error e := by simp [delete_item, hr]
      rw [he] at h
      exact absurd h (by simp)
  have hmeta := (delete_item_run_ok M s filename m hrun).2
  have hsub := search_image_mem_metadata M (delete_item M s filename).1 img comment k
    maxd item hmem
  have h1 : (delete_item M s filename).1 = (delete_item_run M s filename).1 := rfl
  rw [h1, hmeta] at hsub
  have hf := List.mem_filter.mp hsub
  simpa using hf.2

/-- Witness for C6: deleting "a.jpg" from the two-item state succeeds, and a
subsequent Search returns the surviving item "b.jpg", whose filename differs
from the deleted one. -/
theorem c6_deleted_filename_never_returned_witness :
    (delete_item demoClip demoSys2 "a.jpg").2 = .message "Item deleted successfully" ∧
    (⟨"b.jpg", "d", []⟩ : CatalogItem) ∈
      search_image demoClip (delete_item demoClip demoSys2 "a.jpg").1 "b.jpg" "" 3 ⊤ ∧
    (⟨"b.jpg", "d", []⟩ : CatalogItem).filename ≠ "a.jpg" :=
  ⟨by decide, by decide,
   c6_deleted_filename_never_returned demoClip demoSys2 "a.jpg"
     "Item deleted successfully" (by decide) "b.jpg" "" 3 ⊤ ⟨"b.jpg", "d", []⟩ (by decide)⟩

/-- C7: DeleteItem never propagates an exception — its result is always
either the success message or a structured `{error: message}` payload, and in
particular a file-system error (missing comments file) is returned as an
error payload. -/
theorem c7_delete_returns_error_payload (M : Clip) (s : Sys) (filename : String) :
    ((delete_item M s filename).2 = .message "Item deleted successfully" ∨
      ∃ e, (delete_item M s filename).2 = .error e) ∧
    (s.commentsFile = none → ∃ e, (delete_item M s filename).2 = .error e) := by
  constructor
  · cases hr : (delete_item_run M s filename).2 with
    | ok m =>
      left
      have hm := (delete_item_run_ok M s filename m hr).1
      simp [delete_item, hr, hm]
    | error e =>
      exact Or.inr ⟨e, by simp [delete_item, hr]⟩
  · intro hc
    exact ⟨"FileNotFoundError: image_comments.json",
      by simp [delete_item, delete_item_run, hc]⟩

/-- Witness for C7: on a state with no comments file, deleting returns a
structured error payload. -/
theorem c7_delete_returns_error_payload_witness :
    (⟨["a.jpg"], none, [], [], [], []⟩ : Sys).commentsFile = none ∧
    ∃ e, (delete_item demoClip ⟨["a.jpg"], none, [], [], [], []⟩ "a.jpg").2 = .error e :=
  ⟨rfl, (c7_delete_returns_error_payload demoClip
    ⟨["a.jpg"], none, [], [], [], []⟩ "a.jpg").2 rfl⟩

/-- C10: when a DeleteItem call succeeds leaving an empty metadata sequence,
the in-memory index is emptied but `faiss_index.index` on disk is not
rewritten; when a RebuildIndex call produces an empty metadata sequence, the
in-memory index is emptied and neither the index file nor `metadata.json`
is rewritten. -/
theorem c10_empty_result_skips_persist (M : Clip) (s : Sys) (filename : String) :
    ((delete_item M s filename).2 = .message "Item deleted successfully" →
      (delete_item M s filename).1.metadata = [] →
      (delete_item M s filename).1.index = [] ∧
      (delete_item M s filename).1.indexFile = s.indexFile) ∧
    ((rebuild_index M s).1.metadata = [] →
      (rebuild_index M s).1.index = [] ∧
      (rebuild_index M s).1.indexFile = s.indexFile ∧
      (rebuild_index M s).1.metadataFile = s.metadataFile) := by
  constructor
  · intro hmsg hmeta
    unfold delete_item delete_item_run at hmsg hmeta ⊢
    cases hc : s.commentsFile with
    | none => simp [hc] at hmsg
    | some cd =>
      simp only [hc] at hmsg hmeta ⊢
      by_cases hk : dictHas cd filename = true
      · rw [if_pos hk] at hmsg hmeta ⊢
        by_cases hm : (s.metadata.filter (fun item => item.filename ≠ filename)).isEmpty = true
        · rw [if_pos hm]
          exact ⟨rfl, rfl⟩
        · rw [if_neg hm] at hmsg hmeta ⊢
          by_cases ha : (s.metadata.filter (fun item => item.filename ≠ filename)).all
              (fun item => item.filename ∈ s.images.filter (fun f => f ≠ filename)) = true
          · rw [if_pos ha] at hmeta
            simp only at hmeta
            exact absurd (by rw [hmeta]; rfl) hm
          · rw [if_neg ha] at hmsg
            simp at hmsg
      · rw [if_neg hk] at hmsg
        simp at hmsg
  · intro hmeta
    unfold rebuild_index at hmeta ⊢
    cases hc : s.commentsFile with
    | none => simp [hc]
    | some cd =>
      simp only [hc] at hmeta ⊢
      by_cases he : ((rebuildRows cd s.images).map (fun r =>
          process_image_text_pair M (imgPath r.1) (combinedText r.2.1 r.2.2))).isEmpty = true
      · rw [if_pos he]
        exact ⟨rfl, rfl, rfl⟩
      · rw [if_neg he] at hmeta ⊢
        simp only at hmeta
        have hrows : rebuildRows cd s.images = [] := by
          have := congrArg List.length hmeta
          simpa using List.eq_nil_of_length_eq_zero (by simpa using this)
        exact absurd (by simp [hrows]) he

/-- Witness for C10: deleting the only item leaves the index file untouched,
and rebuilding with every backing image missing leaves both files untouched. -/
theorem c10_empty_result_skips_persist_witness :
    ((delete_item demoClip demoSys "a.jpg").1.index = [] ∧
      (delete_item demoClip demoSys "a.jpg").1.indexFile = demoSys.indexFile) ∧
    ((rebuild_index demoClip demoSysNoImages).1.index = [] ∧
      (rebuild_index demoClip demoSysNoImages).1.indexFile = demoSysNoImages.indexFile ∧
      (rebuild_index demoClip demoSysNoImages).1.metadataFile = demoSysNoImages.metadataFile) :=
  ⟨(c10_empty_result_skips_persist demoClip demoSys "a.jpg").1 (by decide) (by decide),
   (c10_empty_result_skips_persist demoClip demoSysNoImages "a.jpg").2 (by decide)⟩

/-- C8: AnalyzeOutfit returns at most one component per category (its
category list has no duplicates); every returned component has confidence
`>= 0.75` and a category outside the fixed exclusion set; and among the
input detections sharing a returned component's category, the kept component
has the highest confidence, which is attained by one of those detections. -/
theorem c8_analyze_outfit_dedup_filtered (uuid : ℕ → String) (components : List DetComp) :
    ((analyze_outfit uuid components).map (·.category)).Nodup ∧
    (∀ o ∈ analyze_outfit uuid components,
      mkRat 3 4 ≤ o.confidence ∧ o.category ∉ excluded_categories) ∧
    (∀ o ∈ analyze_outfit uuid components,
      (∀ c ∈ components, c.category = o.category → c.confidence ≤ o.confidence) ∧
      (∃ c ∈ components, c.category = o.category ∧ c.confidence = o.confidence)) := by
  have hinv : TrackerInv (analyzeGo uuid components [] 0) components := by
    have h0 : TrackerInv [] [] := ⟨List.nodup_nil, by simp, by simp⟩
    simpa using analyzeGo_spec uuid components [] 0 [] h0
  obtain ⟨hnodup, hent, _⟩ := hinv
  refine ⟨?_, ?_, ?_⟩
  · unfold analyze_outfit
    rw [List.map_map]
    have hpt : ∀ p ∈ analyzeGo uuid components [] 0,
        ((fun o : SegComp => o.category) ∘ (fun p : String × SegComp => p.2)) p = p.1 :=
      fun p hp => (hent p hp).1
    rw [List.map_congr_left hpt]
    exact hnodup
  · intro o ho
    obtain ⟨p, hp, rfl⟩ := List.mem_map.mp ho
    exact ⟨(hent p hp).2.1, (hent p hp).2.2.1⟩
  · intro o ho
    obtain ⟨p, hp, rfl⟩ := List.mem_map.mp ho
    obtain ⟨h1, _, _, h4, h5⟩ := hent p hp
    constructor
    · intro c hc hcat
      exact h4 c hc (hcat.trans h1)
    · obtain ⟨c, hc, hc1, hc2⟩ := h5
      exact ⟨c, hc, hc1.trans h1.symm, hc2⟩

/-- A concrete fresh-name generator used in closed witness statements. -/
def demoUuid : ℕ → String := fun n => toString n

/-- Concrete detections: two "shirt" detections above threshold, an excluded
"collar", a below-threshold "pants". -/
def demoDets : List DetComp :=
  [⟨"shirt", mkRat 4 5, []⟩, ⟨"shirt", mkRat 9 10, []⟩, ⟨"collar", mkRat 99 100, []⟩, ⟨"pants", mkRat 1 2, []⟩]

/-- Witness for C8: on the concrete detections, the returned categories are
duplicate-free and the kept "shirt" component passes the filters and
dominates every "shirt" detection. -/
theorem c8_analyze_outfit_dedup_filtered_witness :
    (⟨"shirt", mkRat 9 10, "segments/1.jpg"⟩ : SegComp) ∈ analyze_outfit demoUuid demoDets ∧
    ((analyze_outfit demoUuid demoDets).map (·.category)).Nodup ∧
    (mkRat 3 4 ≤ mkRat 9 10 ∧ ("shirt" : String) ∉ excluded_categories) ∧
    (∀ c ∈ demoDets, c.category = (⟨"shirt", mkRat 9 10, "segments/1.jpg"⟩ : SegComp).category →
      c.confidence ≤ mkRat 9 10) :=
  ⟨by decide,
   (c8_analyze_outfit_dedup_filtered demoUuid demoDets).1,
   (c8_analyze_outfit_dedup_filtered demoUuid demoDets).2.1
     ⟨"shirt", mkRat 9 10, "segments/1.jpg"⟩ (by decide),
   ((c8_analyze_outfit_dedup_filtered demoUuid demoDets).2.2
     ⟨"shirt", mkRat 9 10, "segments/1.jpg"⟩ (by decide)).1⟩

/-- C9: for a non-empty comment the query embedding of Search is exactly the
storage combination of `process_image_text_pair` on the same (image, text)
pair — elementwise average of the independently L2-normalized image and text
embeddings — and for an empty comment it is the L2-normalized image
embedding alone. -/
theorem c9_query_eq_storage_embedding (M : Clip) (img comment : String)
    (h : comment ≠ "") :
    search_query_emb M img comment = process_image_text_pair M img comment ∧
    search_query_emb M img "" = lnormalize M (M.imageEmb img) := by
  constructor
  · simp [search_query_emb, process_image_text_pair, h]
  · simp [search_query_emb]

/-- Witness for C9 at a concrete model, image and comment. -/
theorem c9_query_eq_storage_embedding_witness :
    ("blue shirt" : String) ≠ "" ∧
    search_query_emb demoClip "a.jpg" "blue shirt" =
      process_image_text_pair demoClip "a.jpg" "blue shirt" :=
  ⟨by decide, (c9_query_eq_storage_embedding demoClip "a.jpg" "blue shirt" (by decide)).1⟩
